import Mathlib

/-!
Shallow embedding of the duplicate-photo remover (`one_folder.py`,
`two_folders.py`).  File names, directory entries, hashes and paths are
modelled as `String`; a Python `dict` is modelled as an association list
with insertion-order semantics (`dictInsert` overwrites in place, new keys
are appended); Python `set`s of hashes are modelled as `Finset String`.
Decoding/hashing is abstracted by oracles `String → Option String`
(`get_image_hash` returning a hex digest or `None`).
-/

namespace DupPhotos

/-- A Python `dict` from hash to path (or name to path), insertion ordered. -/
abbrev Dict := List (String × String)

/-- Python `str.lower()` (ASCII case folding suffices for the extensions used). -/
def pyLower (s : String) : String := ⟨s.data.map Char.toLower⟩

/-- Python `str.endswith(suffix)`: exact character-suffix test. -/
def pyEndsWith (s suffix : String) : Bool := suffix.data.isSuffixOf s.data

/-- Index of the last occurrence of `c`, if any. -/
def lastIdxOf (c : Char) : List Char → Option Nat
  | [] => none
  | a :: rest =>
    match lastIdxOf c rest with
    | some i => some (i + 1)
    | none => if a = c then some 0 else none

/-- Python `os.path.splitext` on a bare file name (no directory separators):
split at the last dot, unless every character before it is a dot. -/
def splitext (s : String) : String × String :=
  match lastIdxOf '.' s.data with
  | none => (s, "")
  | some i =>
    if (s.data.take i).all (fun c => c = '.') then (s, "")
    else (⟨s.data.take i⟩, ⟨s.data.drop i⟩)

/-- `os.path.splitext(name)[0]`. -/
def baseOf (n : String) : String := (splitext n).1

/-- `os.path.splitext(name)[1]`. -/
def extOf (n : String) : String := (splitext n).2

/-- `os.path.basename`: the part after the last slash. -/
def pyBasename (s : String) : String := ⟨(s.data.reverse.takeWhile (fun c => c ≠ '/')).reverse⟩

/-- The scanner filter of `process_images` (one_folder.py line 50 /
two_folders.py line 50): `entry.name.lower().endswith(('.heic', '.jpg', '.png'))`. -/
def isImageName (n : String) : Bool :=
  pyEndsWith (pyLower n) (".heic") || pyEndsWith (pyLower n) (".jpg") ||
    pyEndsWith (pyLower n) (".png")

/-- The list of image-classified entries of a directory listing. -/
def scanImages (folder : List String) : List String := folder.filter isImageName

/-! ### Python dict operations -/

/-- `m[k]` as an option: first binding wins (keys are unique in a real dict). -/
def dictFind : Dict → String → Option String
  | [], _ => none
  | kv :: rest, k => if kv.1 = k then some kv.2 else dictFind rest k

/-- `k in m`. -/
def dictMem (m : Dict) (k : String) : Bool := (dictFind m k).isSome

/-- `m[k] = v`: overwrite in place if the key is present, else append. -/
def dictInsert (m : Dict) (k v : String) : Dict :=
  if dictMem m k then m.map (fun kv => if kv.1 = k then (k, v) else kv)
  else m ++ [(k, v)]

/-- `list(m.keys())`. -/
def dictKeys (m : Dict) : List String := m.map Prod.fst

/-- `len(m)`. -/
def dictSize (m : Dict) : Nat := m.length

/-- `{**a, **b}`: start from `a`, then insert every binding of `b` in order. -/
def dictMerge (a b : Dict) : Dict := b.foldl (fun m kv => dictInsert m kv.1 kv.2) a

/-! ### Hash index builder (`process_images`) -/

/-- The hash a file contributes to the index, if any: `get_image_hash`
returned a truthy value (a non-empty digest string). -/
def okHash (d : String → Option String) (p : String) : Option String :=
  match d p with
  | some h => if h = "" then none else some h
  | none => none

/-- One aggregation step of `process_images`: `if img_hash: image_hashes[img_hash] = file_path`. -/
def hashStep (d : String → Option String) (m : Dict) (p : String) : Dict :=
  match okHash d p with
  | some h => dictInsert m h p
  | none => m

/-- Aggregate the hashes of the given files into a dict, in the given
completion order. -/
def buildIndex (d : String → Option String) (files : List String) : Dict :=
  files.foldl (hashStep d) []

/-- `process_images(folder)`: filter image entries, hash each, aggregate.
The completion order of the thread pool is modelled as the scan order. -/
def process_images (d : String → Option String) (folder : List String) : Dict :=
  buildIndex d (scanImages folder)

/-! ### Set reconciler (`compare_images_and_sort`, two_folders.py lines 190-210) -/

/-- The fingerprint set of an index: its key set. -/
def fps (m : Dict) : Finset String := (dictKeys m).toFinset

/-- `intersection = {h for h in images_a if h in images_b}`. -/
def intersection (a b : Dict) : Finset String := (fps a).filter (fun h => h ∈ fps b)

/-- `only_in_a = {h for h in images_a if h not in images_b}`. -/
def only_in_a (a b : Dict) : Finset String := (fps a).filter (fun h => h ∉ fps b)

/-- `only_in_b = {h for h in images_b if h not in images_a}`. -/
def only_in_b (a b : Dict) : Finset String := (fps b).filter (fun h => h ∉ fps a)

/-- `union = images_a.keys() | images_b.keys()`. -/
def union (a b : Dict) : Finset String := fps a ∪ fps b

/-- The resolver used for the union partition: `{**images_a, **images_b}`. -/
def unionResolver (a b : Dict) : Dict := dictMerge a b

/-! ### One-folder summary (`remove_duplicates_and_store_unique`, lines 74-99) -/

/-- The `(total_files_before, total_files_after, duplicate_files)` counts the
end-of-run summary prints: total scanned files, index size, and their
difference. -/
def remove_duplicates_summary (d : String → Option String) (folder : List String) :
    Nat × Nat × Nat :=
  let images_c := process_images d folder
  let total_files_before := (scanImages folder).length
  let unique_files := dictSize images_c
  (total_files_before, unique_files, total_files_before - unique_files)

/-- Number of scanned files that contribute no hash (decode failures). -/
def failCount (d : String → Option String) (files : List String) : Nat :=
  files.countP (fun p => !(okHash d p).isSome)

/-! ### Video reconciler (`clean_up_videos`, lines 15-36) -/

/-- State of the source directory and of the videos holding directory:
a listing of entry names (scandir order) and the set of names moved out. -/
structure DirState where
  folder : List String
  videoOut : Finset String
deriving DecidableEq

/-- `heic_files`: base names of entries whose lowered name ends in `.heic`. -/
def heic_files (folder : List String) : Finset String :=
  ((folder.filter (fun n => pyEndsWith (pyLower n) (".heic"))).map baseOf).toFinset

/-- The loop body of `clean_up_videos` for one directory entry. -/
def cleanStep (heic : Finset String) (st : DirState) (name : String) : DirState :=
  let base := baseOf name
  let ext := extOf name
  if pyLower ext = ".mp4" then
    if base ∈ heic then { st with folder := st.folder.erase name }
    else { folder := st.folder.erase name, videoOut := insert name st.videoOut }
  else if pyLower ext = ".mov" then
    { folder := st.folder.erase name, videoOut := insert name st.videoOut }
  else st

/-- `clean_up_videos(folder, video_output_folder)`: compute the `.heic` base
set once, then process a snapshot of the directory entries in order. -/
def clean_up_videos (st : DirState) : DirState :=
  let heic := heic_files st.folder
  st.folder.foldl (cleanStep heic) st

/-- An entry `clean_up_videos` removes from the folder (its lowered extension
is `.mp4` or `.mov`). -/
def isVideoName (n : String) : Bool :=
  pyLower (extOf n) = ".mp4" || pyLower (extOf n) = ".mov"

/-- An entry `clean_up_videos` moves to the holding directory: a `.mov`, or a
`.mp4` whose base name has no `.heic` counterpart. -/
def isMovedName (heic : Finset String) (n : String) : Bool :=
  pyLower (extOf n) = ".mov" ||
    (pyLower (extOf n) = ".mp4" && !(baseOf n ∈ heic : Bool))

/-! ### Materializer (`copy_image` + the copy loops) and re-scan -/

/-- Copy the resolved file of one fingerprint into the destination directory:
the destination maps the source's base name to the source path (same bytes),
overwriting any same-named file (`shutil.copy2`). A fingerprint missing from
the resolver copies nothing. -/
def copyStep (resolver : Dict) (dest : Dict) (h : String) : Dict :=
  match dictFind resolver h with
  | some src => dictInsert dest (pyBasename src) src
  | none => dest

/-- Materialize a partition (a list of fingerprints in some enumeration
order) into an initially empty destination directory. -/
def materialize (resolver : Dict) (part : List String) : Dict :=
  part.foldl (copyStep resolver) []

/-- The hashing oracle seen when re-scanning the destination: a destination
file has the bytes of the source it was copied from, hence its hash. -/
def destOracle (d : String → Option String) (dest : Dict) (name : String) : Option String :=
  match dictFind dest name with
  | some src => d src
  | none => none

/-- Re-scan the destination directory with `process_images` and take the
fingerprint set of the resulting index. -/
def rehash (d : String → Option String) (dest : Dict) : Finset String :=
  fps (process_images (destOracle d dest) (dictKeys dest))

/-! ### Decoder/hasher (`get_image_hash`, lines 38-45) -/

/-- `get_image_hash(image_path)` over abstract decoding oracles: open the
image, convert to RGB, hash the pixel bytes; any raised exception is caught
and turned into `None`. `Img` abstracts the PIL image object. -/
def get_image_hash {Img : Type} (pilOpen : String → Except String Img)
    (convertRGB : Img → Except String Img) (tobytes : Img → List Nat)
    (sha256hex : List Nat → String) (image_path : String) : Option String :=
  match pilOpen image_path with
  | Except.error _ => none
  | Except.ok img =>
    match convertRGB img with
    | Except.error _ => none
    | Except.ok rgb => some (sha256hex (tobytes rgb))

/-! ### Association-list dictionary lemmas -/

theorem dictFind_isSome (m : Dict) (k : String) :
    (dictFind m k).isSome = true ↔ k ∈ dictKeys m := by
  induction m with
  | nil => simp [dictFind, dictKeys]
  | cons kv rest ih =>
    by_cases hk : kv.1 = k
    · simp [dictFind, dictKeys, hk]
    · simp [dictFind, dictKeys, hk, ih, Ne.symm hk]

theorem dictMem_iff (m : Dict) (k : String) : dictMem m k = true ↔ k ∈ dictKeys m := by
  simpa [dictMem] using dictFind_isSome m k

theorem dictFind_append (m m2 : Dict) (k : String) :
    dictFind (m ++ m2) k = (dictFind m k).orElse (fun _ => dictFind m2 k) := by
  induction m with
  | nil => simp [dictFind, Option.orElse]
  | cons kv rest ih =>
    by_cases hk : kv.1 = k
    · simp [dictFind, hk, Option.orElse]
    · simp [dictFind, hk, ih]

theorem dictFind_mapReplace_self (m : Dict) (k v : String) (h : k ∈ dictKeys m) :
    dictFind (m.map (fun kv => if kv.1 = k then (k, v) else kv)) k = some v := by
  induction m with
  | nil => simp [dictKeys] at h
  | cons kv rest ih =>
    by_cases hk : kv.1 = k
    · simp [dictFind, hk]
    · have hr : k ∈ dictKeys rest := by
        simpa [dictKeys, Ne.symm hk] using h
      simp [dictFind, hk, ih hr]

theorem dictFind_mapReplace_ne (m : Dict) (k v k' : String) (h : k' ≠ k) :
    dictFind (m.map (fun kv => if kv.1 = k then (k, v) else kv)) k' = dictFind m k' := by
  induction m with
  | nil => simp [dictFind]
  | cons kv rest ih =>
    by_cases hk : kv.1 = k
    · simp [dictFind, hk, Ne.symm h, ih]
    · simp [dictFind, hk, ih]

theorem dictFind_insert_self (m : Dict) (k v : String) :
    dictFind (dictInsert m k v) k = some v := by
  unfold dictInsert
  by_cases hmem : dictMem m k = true
  · rw [if_pos hmem]
    exact dictFind_mapReplace_self m k v ((dictMem_iff m k).1 hmem)
  · rw [if_neg hmem, dictFind_append]
    have : dictFind m k = none := by
      cases hfind : dictFind m k with
      | none => rfl
      | some w => exact absurd (by simp [dictMem, hfind]) hmem
    simp [this, dictFind, Option.orElse]

theorem dictFind_insert_ne (m : Dict) (k v k' : String) (h : k' ≠ k) :
    dictFind (dictInsert m k v) k' = dictFind m k' := by
  unfold dictInsert
  by_cases hmem : dictMem m k = true
  · rw [if_pos hmem]
    exact dictFind_mapReplace_ne m k v k' h
  · rw [if_neg hmem, dictFind_append]
    cases hfind : dictFind m k' with
    | none => simp [hfind, dictFind, Ne.symm h, Option.orElse]
    | some w => simp [hfind, Option.orElse]

theorem dictKeys_insert (m : Dict) (k v : String) :
    dictKeys (dictInsert m k v) =
      if dictMem m k then dictKeys m else dictKeys m ++ [k] := by
  unfold dictInsert
  by_cases hmem : dictMem m k = true
  · rw [if_pos hmem, if_pos hmem]
    simp only [dictKeys, List.map_map]
    apply List.map_congr_left
    intro kv _
    by_cases hk : kv.1 = k <;> simp [hk]
  · rw [if_neg hmem, if_neg hmem]
    simp [dictKeys]

theorem fps_insert (m : Dict) (k v : String) : fps (dictInsert m k v) = insert k (fps m) := by
  unfold fps
  rw [dictKeys_insert]
  by_cases hmem : dictMem m k = true
  · rw [if_pos hmem]
    have : k ∈ (dictKeys m).toFinset := by
      simpa using (dictMem_iff m k).1 hmem
    exact (Finset.insert_eq_self.2 this).symm
  · rw [if_neg hmem]
    ext x
    simp [or_comm]

theorem dictMerge_cons (a : Dict) (kv : String × String) (t : Dict) :
    dictMerge a (kv :: t) = dictMerge (dictInsert a kv.1 kv.2) t := rfl

theorem fps_merge (a b : Dict) : fps (dictMerge a b) = fps a ∪ fps b := by
  induction b generalizing a with
  | nil => simp [dictMerge, fps, dictKeys]
  | cons kv t ih =>
    rw [dictMerge_cons, ih, fps_insert]
    ext x
    simp [fps, dictKeys, or_comm, or_left_comm]

theorem dictFind_merge_of_not_mem (a b : Dict) (k : String) (h : k ∉ dictKeys b) :
    dictFind (dictMerge a b) k = dictFind a k := by
  induction b generalizing a with
  | nil => rfl
  | cons kv t ih =>
    rw [show dictKeys (kv :: t) = kv.1 :: dictKeys t from rfl] at h
    simp only [List.mem_cons, not_or] at h
    rw [dictMerge_cons, ih _ h.2, dictFind_insert_ne _ _ _ _ h.1]

theorem dictFind_merge_of_mem (a b : Dict) (k : String) (hb : (dictKeys b).Nodup)
    (h : k ∈ dictKeys b) : dictFind (dictMerge a b) k = dictFind b k := by
  induction b generalizing a with
  | nil => simp [dictKeys] at h
  | cons kv t ih =>
    have hb2 : (dictKeys t).Nodup := (by simpa [dictKeys] using hb : _ ∧ _).2
    by_cases hk : k = kv.1
    · have hnt : kv.1 ∉ dictKeys t := (by simpa [dictKeys] using hb : _ ∧ _).1
      rw [dictMerge_cons, hk, dictFind_merge_of_not_mem _ _ _ hnt,
        dictFind_insert_self]
      simp [dictFind]
    · have ht : k ∈ dictKeys t := by
        simpa [dictKeys, hk] using h
      rw [dictMerge_cons, ih _ hb2 ht]
      exact (if_neg (fun he => hk he.symm)).symm

/-! ### Counting helpers -/

theorem countP_not_add {α : Type} (p : α → Bool) (l : List α) :
    l.countP (fun a => !p a) + l.countP p = l.length := by
  induction l with
  | nil => simp
  | cons a t ih => by_cases hp : p a = true <;> simp [List.countP_cons, hp] <;> omega

theorem length_filterMap_eq_countP {α β : Type} (f : α → Option β) (l : List α) :
    (l.filterMap f).length = l.countP (fun a => (f a).isSome) := by
  induction l with
  | nil => simp
  | cons a t ih =>
    cases hf : f a with
    | none => simp [List.filterMap_cons_none hf, List.countP_cons, hf, ih]
    | some b => simp [List.filterMap_cons_some hf, List.countP_cons, hf, ih]

theorem length_filterMap_eq_length_iff {α β : Type} (f : α → Option β) (l : List α) :
    (l.filterMap f).length = l.length ↔ ∀ a ∈ l, (f a).isSome = true := by
  induction l with
  | nil => simp
  | cons a t ih =>
    have hle := List.length_filterMap_le f t
    cases hf : f a with
    | none =>
      simp only [List.filterMap_cons_none hf, List.length_cons, List.mem_cons]
      constructor
      · intro h
        omega
      · intro h
        have := h a (Or.inl rfl)
        rw [hf] at this
        simp at this
    | some b =>
      simp only [List.filterMap_cons_some hf, List.length_cons, List.mem_cons]
      constructor
      · intro h
        have ht : (t.filterMap f).length = t.length := by omega
        intro x hx
        rcases hx with he | hxt
        · simp [he, hf]
        · exact (ih.1 ht) x hxt
      · intro h
        have ht : (t.filterMap f).length = t.length := ih.2 (fun x hx => h x (Or.inr hx))
        omega

/-! ### Set reconciler lemmas and claims -/

theorem intersection_eq_inter (a b : Dict) : intersection a b = fps a ∩ fps b := by
  ext x
  simp [intersection]

/-- C4: for every pair of hash indices A and B, exclusive-A and exclusive-B are
disjoint, intersection ∪ exclusive-A ∪ exclusive-B equals the union partition,
and |union| = |A| + |B| − |intersection| as fingerprint-set sizes. -/
theorem partition_algebra (a b : Dict) :
    only_in_a a b ∩ only_in_b a b = ∅ ∧
    intersection a b ∪ only_in_a a b ∪ only_in_b a b = union a b ∧
    (union a b).card = (fps a).card + (fps b).card - (intersection a b).card := by
  refine ⟨?_, ?_, ?_⟩
  · ext x
    simp only [Finset.mem_inter, Finset.not_mem_empty, iff_false, only_in_a, only_in_b,
      Finset.mem_filter]
    tauto
  · ext x
    simp only [Finset.mem_union, intersection, only_in_a, only_in_b, union,
      Finset.mem_filter]
    tauto
  · rw [intersection_eq_inter]
    have h := Finset.card_union_add_card_inter (fps a) (fps b)
    unfold union
    omega

/-- C10: every fingerprint of each partition set is a key of the resolver map
that partition is paired with, so the representative-path lookup performed
during materialization never fails. -/
theorem partition_resolvers_total (a b : Dict) (h : String) :
    (h ∈ only_in_a a b → (dictFind a h).isSome = true) ∧
    (h ∈ only_in_b a b → (dictFind b h).isSome = true) ∧
    (h ∈ intersection a b → (dictFind a h).isSome = true) ∧
    (h ∈ union a b → (dictFind (unionResolver a b) h).isSome = true) := by
  refine ⟨fun hm => ?_, fun hm => ?_, fun hm => ?_, fun hm => ?_⟩
  · have h1 : h ∈ fps a := (Finset.mem_filter.1 hm).1
    exact (dictFind_isSome a h).2 (by simpa [fps] using h1)
  · have h1 : h ∈ fps b := (Finset.mem_filter.1 hm).1
    exact (dictFind_isSome b h).2 (by simpa [fps] using h1)
  · have h1 : h ∈ fps a := (Finset.mem_filter.1 hm).1
    exact (dictFind_isSome a h).2 (by simpa [fps] using h1)
  · have h1 : h ∈ fps (dictMerge a b) := by
      rw [fps_merge]
      exact hm
    exact (dictFind_isSome (unionResolver a b) h).2 (by simpa [fps] using h1)

/-- C10 witness: the four lookups succeed on a concrete pair of indices. -/
theorem partition_resolvers_total_witness :
    (dictFind [("h1", "p"), ("h2", "q")] ("h1")).isSome = true ∧
    (dictFind [("h2", "r"), ("h3", "s")] ("h3")).isSome = true ∧
    (dictFind [("h1", "p"), ("h2", "q")] ("h2")).isSome = true ∧
    (dictFind (unionResolver [("h1", "p"), ("h2", "q")] [("h2", "r"), ("h3", "s")])
      ("h2")).isSome = true :=
  ⟨(partition_resolvers_total [("h1", "p"), ("h2", "q")] [("h2", "r"), ("h3", "s")]
      ("h1")).1 (by decide),
   (partition_resolvers_total [("h1", "p"), ("h2", "q")] [("h2", "r"), ("h3", "s")]
      ("h3")).2.1 (by decide),
   (partition_resolvers_total [("h1", "p"), ("h2", "q")] [("h2", "r"), ("h3", "s")]
      ("h2")).2.2.1 (by decide),
   (partition_resolvers_total [("h1", "p"), ("h2", "q")] [("h2", "r"), ("h3", "s")]
      ("h2")).2.2.2 (by decide)⟩

/-- C1 counterexample: with A = {h2 ↦ q} and B = {h2 ↦ r}, the union resolver
`{**images_a, **images_b}` yields B's path r for the shared fingerprint h2,
not A's path q as the claim states. -/
theorem union_rep_not_from_A_cex :
    ("h2" : String) ∈ intersection [("h2", "q")] [("h2", "r")] ∧
    dictFind (unionResolver [("h2", "q")] [("h2", "r")]) ("h2") = some ("r") ∧
    dictFind [("h2", "q")] ("h2") = some ("q") ∧
    some ("r") ≠ some ("q" : String) := by decide

/-- C1 amended: for every fingerprint present in both HashIndex A and
HashIndex B, the representative path used for the union partition is the path
recorded in B (B takes precedence over A, since `{**a, **b}` lets `b`
overwrite `a`). -/
theorem union_rep_from_B (a b : Dict) (k : String) (hb : (dictKeys b).Nodup)
    (hk : k ∈ intersection a b) : dictFind (unionResolver a b) k = dictFind b k := by
  have hkb : k ∈ dictKeys b := by
    have h2 := (Finset.mem_filter.1 hk).2
    simpa [fps] using h2
  exact dictFind_merge_of_mem a b k hb hkb

/-- C1 witness: the amended precedence rule applied to a concrete pair. -/
theorem union_rep_from_B_witness :
    dictFind (unionResolver [("h2", "q")] [("h2", "r")]) ("h2") =
      dictFind [("h2", "r")] ("h2") :=
  union_rep_from_B [("h2", "q")] [("h2", "r")] ("h2") (by decide) (by decide)

/-! ### Hash index builder lemmas -/

theorem dictKeys_insert_nodup (m : Dict) (k v : String) (h : (dictKeys m).Nodup) :
    (dictKeys (dictInsert m k v)).Nodup := by
  rw [dictKeys_insert]
  by_cases hmem : dictMem m k = true
  · rwa [if_pos hmem]
  · rw [if_neg hmem]
    have hk : k ∉ dictKeys m := fun hm2 => hmem ((dictMem_iff m k).2 hm2)
    simp [List.nodup_append, h, hk]

theorem foldl_hashStep_keys_nodup (d : String → Option String) (files : List String)
    (m : Dict) (h : (dictKeys m).Nodup) :
    (dictKeys (files.foldl (hashStep d) m)).Nodup := by
  induction files generalizing m with
  | nil => simpa using h
  | cons p t ih =>
    rw [List.foldl_cons]
    cases ho : okHash d p with
    | none =>
      rw [show hashStep d m p = m from by simp [hashStep, ho]]
      exact ih m h
    | some hsh =>
      rw [show hashStep d m p = dictInsert m hsh p from by simp [hashStep, ho]]
      exact ih _ (dictKeys_insert_nodup m hsh p h)

theorem fps_foldl_hashStep (d : String → Option String) (files : List String) (m : Dict) :
    fps (files.foldl (hashStep d) m) = fps m ∪ (files.filterMap (okHash d)).toFinset := by
  induction files generalizing m with
  | nil => simp
  | cons p t ih =>
    rw [List.foldl_cons]
    cases ho : okHash d p with
    | none =>
      rw [show hashStep d m p = m from by simp [hashStep, ho], ih,
        List.filterMap_cons_none ho]
    | some hsh =>
      rw [show hashStep d m p = dictInsert m hsh p from by simp [hashStep, ho], ih,
        fps_insert, List.filterMap_cons_some ho]
      ext x
      simp only [Finset.mem_union, Finset.mem_insert, List.mem_toFinset, List.mem_cons]
      tauto

theorem dictSize_eq_card_fps (m : Dict) (h : (dictKeys m).Nodup) :
    dictSize m = (fps m).card := by
  rw [show dictSize m = (dictKeys m).length from by simp [dictSize, dictKeys], fps,
    List.toFinset_card_of_nodup h]

theorem okHash_eq_of_ne_empty (d : String → Option String) (p : String)
    (h : d p ≠ some "") : okHash d p = d p := by
  unfold okHash
  cases hd : d p with
  | none => rfl
  | some s =>
    have hs : s ≠ "" := fun he => h (by rw [hd, he])
    simp [hs]

/-- C6: the index built over a directory has pairwise-distinct fingerprint
keys (each fingerprint maps to exactly one path), its size is at most the
number of image files considered, and the size equals that number iff every
image decodes successfully and no two images share a fingerprint.  The
hypothesis records that a successful digest is never the empty string (a
SHA-256 hexdigest has 64 characters), which is what the code's truthiness
test `if img_hash:` relies on. -/
theorem process_images_invariants (d : String → Option String) (folder : List String)
    (hne : ∀ p ∈ scanImages folder, d p ≠ some "") :
    (dictKeys (process_images d folder)).Nodup ∧
    dictSize (process_images d folder) ≤ (scanImages folder).length ∧
    (dictSize (process_images d folder) = (scanImages folder).length ↔
      (∀ p ∈ scanImages folder, (d p).isSome = true) ∧
      ((scanImages folder).filterMap d).Nodup) := by
  have hokd : (scanImages folder).filterMap (okHash d) = (scanImages folder).filterMap d :=
    List.filterMap_congr (fun p hp => okHash_eq_of_ne_empty d p (hne p hp))
  have hnodup : (dictKeys (process_images d folder)).Nodup :=
    foldl_hashStep_keys_nodup d (scanImages folder) [] (by simp [dictKeys])
  have hfps : fps (process_images d folder) = ((scanImages folder).filterMap d).toFinset := by
    unfold process_images buildIndex
    rw [fps_foldl_hashStep, hokd]
    simp [fps, dictKeys]
  have hsize : dictSize (process_images d folder) =
      ((scanImages folder).filterMap d).toFinset.card := by
    rw [dictSize_eq_card_fps _ hnodup, hfps]
  have hcard_le : ((scanImages folder).filterMap d).toFinset.card ≤
      ((scanImages folder).filterMap d).length := List.toFinset_card_le _
  have hlen_le : ((scanImages folder).filterMap d).length ≤ (scanImages folder).length :=
    List.length_filterMap_le d (scanImages folder)
  refine ⟨hnodup, ?_, ?_⟩
  · rw [hsize]
    omega
  · rw [hsize]
    constructor
    · intro hq
      have h1 : ((scanImages folder).filterMap d).length = (scanImages folder).length := by
        omega
      refine ⟨(length_filterMap_eq_length_iff d (scanImages folder)).1 h1, ?_⟩
      have h2 : ((scanImages folder).filterMap d).toFinset.card =
          ((scanImages folder).filterMap d).length := by omega
      rw [List.card_toFinset] at h2
      exact List.dedup_eq_self.1
        (((scanImages folder).filterMap d).dedup_sublist.eq_of_length h2)
    · rintro ⟨hall, hnd⟩
      rw [List.toFinset_card_of_nodup hnd]
      exact (length_filterMap_eq_length_iff d (scanImages folder)).2 hall

/-- A concrete two-image decode oracle, used to witness C6. -/
def dTwo : String → Option String :=
  fun p => if p = "a.jpg" then some ("h1") else some ("h2")

/-- C6 witness: the invariants instantiated on a concrete directory. -/
theorem process_images_invariants_witness :
    (dictKeys (process_images dTwo ["a.jpg", "b.png"])).Nodup ∧
    dictSize (process_images dTwo ["a.jpg", "b.png"]) ≤
      (scanImages ["a.jpg", "b.png"]).length ∧
    (dictSize (process_images dTwo ["a.jpg", "b.png"]) =
        (scanImages ["a.jpg", "b.png"]).length ↔
      (∀ p ∈ scanImages ["a.jpg", "b.png"], (dTwo p).isSome = true) ∧
      ((scanImages ["a.jpg", "b.png"]).filterMap dTwo).Nodup) :=
  process_images_invariants dTwo ["a.jpg", "b.png"] (by decide)

/-! ### One-folder summary claims -/

/-- The everywhere-failing decode oracle: every file is a decode failure. -/
def dFail : String → Option String := fun _ => none

/-- C3 counterexample: on a directory holding a single image whose decode
fails, the summary reports 1 removed duplicate — the decode failure is
counted as a removed duplicate, and no separate decode-failure count
exists in the summary triple. -/
theorem summary_conflates_cex :
    dFail ("a.jpg") = none ∧
    (remove_duplicates_summary dFail ["a.jpg"]).2.2 = 1 := by decide

/-- C3 amended: the end-of-run summary reports a single duplicates-removed
count equal to scanned files minus index size; it decomposes as the number of
decode failures plus the number of surplus files among equal fingerprints,
so decode failures are counted inside the duplicates-removed figure (they are
not reported separately). -/
theorem summary_counts (d : String → Option String) (folder : List String) :
    (remove_duplicates_summary d folder).2.2 =
      failCount d (scanImages folder) +
        (((scanImages folder).filterMap (okHash d)).length -
          ((scanImages folder).filterMap (okHash d)).toFinset.card) ∧
    failCount d (scanImages folder) ≤ (remove_duplicates_summary d folder).2.2 := by
  have hnodup : (dictKeys (process_images d folder)).Nodup :=
    foldl_hashStep_keys_nodup d (scanImages folder) [] (by simp [dictKeys])
  have hfps : fps (process_images d folder) =
      ((scanImages folder).filterMap (okHash d)).toFinset := by
    unfold process_images buildIndex
    rw [fps_foldl_hashStep]
    simp [fps, dictKeys]
  have hsize : dictSize (process_images d folder) =
      ((scanImages folder).filterMap (okHash d)).toFinset.card := by
    rw [dictSize_eq_card_fps _ hnodup, hfps]
  have hdup : (remove_duplicates_summary d folder).2.2 =
      (scanImages folder).length - dictSize (process_images d folder) := rfl
  have hsplit : failCount d (scanImages folder) +
      ((scanImages folder).filterMap (okHash d)).length = (scanImages folder).length := by
    rw [length_filterMap_eq_countP]
    exact countP_not_add _ _
  have hcard_le : ((scanImages folder).filterMap (okHash d)).toFinset.card ≤
      ((scanImages folder).filterMap (okHash d)).length := List.toFinset_card_le _
  constructor
  · rw [hdup, hsize]
    omega
  · rw [hdup, hsize]
    omega

/-! ### Video reconciler lemmas and claims -/

theorem cleanStep_eq (heic : Finset String) (st : DirState) (n : String) :
    cleanStep heic st n =
      if isVideoName n then
        { folder := st.folder.erase n,
          videoOut := if isMovedName heic n then insert n st.videoOut else st.videoOut }
      else st := by
  unfold cleanStep isVideoName isMovedName
  by_cases h4 : pyLower (extOf n) = ".mp4"
  · by_cases hb : baseOf n ∈ heic <;> simp [h4, hb]
  · by_cases hm : pyLower (extOf n) = ".mov" <;> simp [h4, hm]

theorem isMovedName_isVideoName (heic : Finset String) (n : String)
    (h : isMovedName heic n = true) : isVideoName n = true := by
  unfold isMovedName at h
  unfold isVideoName
  rcases Bool.or_eq_true_iff.1 h with h1 | h2
  · simp [h1]
  · simp [Bool.and_eq_true_iff.1 h2]

theorem foldl_cleanStep_eq (heic : Finset String) (names : List String) (st : DirState) :
    names.foldl (cleanStep heic) st =
      { folder := st.folder.diff (names.filter isVideoName),
        videoOut := st.videoOut ∪ (names.filter (isMovedName heic)).toFinset } := by
  induction names generalizing st with
  | nil =>
    simp only [List.foldl_nil, List.filter_nil, List.toFinset_nil, Finset.union_empty]
    cases st
    rfl
  | cons n t ih =>
    rw [List.foldl_cons, ih, cleanStep_eq]
    by_cases hv : isVideoName n = true
    · by_cases hm : isMovedName heic n = true
      · simp only [hv, hm, if_pos, List.filter_cons, if_true, List.diff_cons,
          List.toFinset_cons, DirState.mk.injEq]
        refine ⟨trivial, ?_⟩
        ext x
        simp only [Finset.mem_union, Finset.mem_insert, List.mem_toFinset]
        tauto
      · simp only [hv, hm, List.filter_cons, if_true, if_false, List.diff_cons,
          DirState.mk.injEq, if_pos]
        exact ⟨trivial, by simp⟩
    · have hm : isMovedName heic n = false := by
        cases hq : isMovedName heic n with
        | false => rfl
        | true => exact absurd (isMovedName_isVideoName heic n hq) hv
      simp [hv, hm, List.filter_cons]

theorem clean_up_videos_eq_core (st : DirState) (h : st.folder.Nodup) :
    clean_up_videos st =
      { folder := st.folder.filter (fun n => !isVideoName n),
        videoOut := st.videoOut ∪
          (st.folder.filter (isMovedName (heic_files st.folder))).toFinset } := by
  unfold clean_up_videos
  rw [foldl_cleanStep_eq]
  have hdiff : st.folder.diff (st.folder.filter isVideoName) =
      st.folder.filter (fun n => !isVideoName n) := by
    rw [h.diff_eq_filter]
    apply List.filter_congr
    intro a ha
    by_cases hv : isVideoName a = true
    · simp [hv, List.mem_filter, ha]
    · simp [hv, List.mem_filter]
  rw [hdiff]

/-- C2 counterexample: directory {a.jpg, a.mp4}.  The claim says `a.mp4` is
deleted because its base name matches the image `a.jpg`; the code instead
moves it to the holding directory, because only `.heic` base names are
consulted. -/
theorem video_cleanup_cex :
    isImageName ("a.jpg") = true ∧ baseOf ("a.jpg") = baseOf ("a.mp4") ∧
    (clean_up_videos ⟨["a.jpg", "a.mp4"], ∅⟩).videoOut = {"a.mp4"} ∧
    (clean_up_videos ⟨["a.jpg", "a.mp4"], ∅⟩).folder = ["a.jpg"] := by decide

/-- C2 amended: for every directory, the reconciler deletes a `.mp4` entry
exactly when its base name is among the base names of the `.heic` entries of
that directory; every other `.mp4` and every `.mov` entry is moved to the
videos holding directory, and `.jpg`/`.jpeg`/`.png` images play no role in
the deletion decision.  Formally: the final folder keeps exactly the
non-video entries, and the holding directory gains exactly the `.mov`
entries plus the `.mp4` entries with no matching `.heic` base name. -/
theorem clean_up_videos_eq (st : DirState) (h : st.folder.Nodup) :
    clean_up_videos st =
      { folder := st.folder.filter (fun n => !isVideoName n),
        videoOut := st.videoOut ∪
          (st.folder.filter (isMovedName (heic_files st.folder))).toFinset } :=
  clean_up_videos_eq_core st h

/-- C2 witness: the amended characterization on a concrete directory. -/
theorem clean_up_videos_eq_witness :
    clean_up_videos ⟨["a.heic", "a.mp4", "b.mp4", "c.mov", "d.jpg"], ∅⟩ =
      { folder := (["a.heic", "a.mp4", "b.mp4", "c.mov", "d.jpg"] : List String).filter
          (fun n => !isVideoName n),
        videoOut := (∅ : Finset String) ∪
          ((["a.heic", "a.mp4", "b.mp4", "c.mov", "d.jpg"] : List String).filter
            (isMovedName
              (heic_files ["a.heic", "a.mp4", "b.mp4", "c.mov", "d.jpg"]))).toFinset } :=
  clean_up_videos_eq ⟨["a.heic", "a.mp4", "b.mp4", "c.mov", "d.jpg"], ∅⟩ (by decide)

/-- C8: the video reconciler is idempotent — running `clean_up_videos` twice
on a directory state yields the same final state as running it once. -/
theorem clean_up_videos_idempotent (st : DirState) (h : st.folder.Nodup) :
    clean_up_videos (clean_up_videos st) = clean_up_videos st := by
  have h1 := clean_up_videos_eq_core st h
  have hnodup2 : (clean_up_videos st).folder.Nodup := by
    rw [h1]
    exact h.filter _
  have h2 := clean_up_videos_eq_core _ hnodup2
  rw [h2, h1]
  simp only [DirState.mk.injEq]
  constructor
  · rw [List.filter_filter]
    apply List.filter_congr
    intro a _
    cases isVideoName a <;> rfl
  · have hnil : (st.folder.filter (fun n => !isVideoName n)).filter
        (isMovedName (heic_files (st.folder.filter (fun n => !isVideoName n)))) = [] := by
      rw [List.filter_eq_nil_iff]
      intro a ha hmv
      have hv := isMovedName_isVideoName _ a hmv
      have := List.of_mem_filter ha
      rw [hv] at this
      simp at this
    rw [hnil]
    simp

/-- C8 witness: idempotence on a concrete directory. -/
theorem clean_up_videos_idempotent_witness :
    clean_up_videos (clean_up_videos ⟨["a.heic", "a.mp4", "c.mov", "d.jpg"], ∅⟩) =
      clean_up_videos ⟨["a.heic", "a.mp4", "c.mov", "d.jpg"], ∅⟩ :=
  clean_up_videos_idempotent ⟨["a.heic", "a.mp4", "c.mov", "d.jpg"], ∅⟩ (by decide)

/-! ### Directory scanner claims -/

/-- C5 counterexample: `x.jpeg` has extension `.jpeg`, which the claim puts in
the image set, yet the scanner's suffix filter rejects it: the file is not
scanned and contributes nothing to the hash index. -/
theorem jpeg_excluded_cex :
    pyLower (extOf ("x.jpeg")) = ".jpeg" ∧ isImageName ("x.jpeg") = false ∧
    scanImages ["x.jpeg"] = [] ∧ process_images dFail ["x.jpeg"] = [] := by decide

/-- C5 amended: the scanner classifies a file as an image exactly when its
lowercased name ends with one of the three suffixes `.heic`, `.jpg`, `.png`;
`.jpeg` is not among them, so files ending in `.jpeg` (and not `.jpg`) are
not hashed. -/
theorem image_classification (folder : List String) (n : String) :
    n ∈ scanImages folder ↔
      n ∈ folder ∧
        ((".heic" : String).data <:+ (pyLower n).data ∨
         (".jpg" : String).data <:+ (pyLower n).data ∨
         (".png" : String).data <:+ (pyLower n).data) := by
  unfold scanImages isImageName pyEndsWith
  rw [List.mem_filter]
  simp only [List.isSuffixOf_iff_suffix, Bool.or_eq_true, decide_eq_true_eq, or_assoc]

/-! ### Decoder/hasher claim -/

/-- C7: `get_image_hash` is total at its interface: it returns
`some fingerprint` exactly when opening and RGB conversion succeed, with the
fingerprint the digest of the converted image's pixel bytes, and `none`
exactly when either step fails; no exception escapes. -/
theorem get_image_hash_total {Img : Type} (pilOpen : String → Except String Img)
    (convertRGB : Img → Except String Img) (tobytes : Img → List Nat)
    (sha256hex : List Nat → String) (image_path : String) :
    (∀ fp, get_image_hash pilOpen convertRGB tobytes sha256hex image_path = some fp ↔
       ∃ img rgb, pilOpen image_path = Except.ok img ∧ convertRGB img = Except.ok rgb ∧
         fp = sha256hex (tobytes rgb)) ∧
    (get_image_hash pilOpen convertRGB tobytes sha256hex image_path = none ↔
       (∃ e, pilOpen image_path = Except.error e) ∨
       (∃ img e, pilOpen image_path = Except.ok img ∧ convertRGB img = Except.error e)) := by
  unfold get_image_hash
  cases ho : pilOpen image_path with
  | error e => simp
  | ok img =>
    cases hc : convertRGB img with
    | error e2 => simp [hc]
    | ok rgb =>
      constructor
      · intro fp
        simp [hc, eq_comm]
      · simp [hc]

/-! ### Materializer round-trip lemmas and claims -/

/-- The destination entry a fingerprint contributes: the resolved source
path, filed under its base name. -/
def resolveEntry (resolver : Dict) (h : String) : Option (String × String) :=
  (dictFind resolver h).map (fun src => (pyBasename src, src))

theorem dictFind_of_mem (m : Dict) (hnd : (dictKeys m).Nodup) (kv : String × String)
    (h : kv ∈ m) : dictFind m kv.1 = some kv.2 := by
  induction m with
  | nil => simp at h
  | cons kv0 rest ih =>
    have hnd2 : (dictKeys rest).Nodup ∧ kv0.1 ∉ dictKeys rest := by
      rw [show dictKeys (kv0 :: rest) = kv0.1 :: dictKeys rest from rfl,
        List.nodup_cons] at hnd
      exact ⟨hnd.2, hnd.1⟩
    rcases List.mem_cons.1 h with he | hr
    · rw [he]
      simp [dictFind]
    · have hne : kv0.1 ≠ kv.1 := by
        intro he2
        exact hnd2.2 (he2 ▸ List.mem_map_of_mem Prod.fst hr)
      simp [dictFind, hne, ih hnd2.1 hr]

theorem foldl_copyStep_eq (resolver : Dict) (part : List String) (acc : Dict)
    (hfresh : ∀ h ∈ part, ∀ src, dictFind resolver h = some src →
      pyBasename src ∉ dictKeys acc)
    (hnodup : ((part.filterMap (resolveEntry resolver)).map Prod.fst).Nodup) :
    part.foldl (copyStep resolver) acc = acc ++ part.filterMap (resolveEntry resolver) := by
  induction part generalizing acc with
  | nil => simp
  | cons h t ih =>
    rw [List.foldl_cons]
    cases hr : dictFind resolver h with
    | none =>
      have hre : resolveEntry resolver h = none := by simp [resolveEntry, hr]
      rw [show copyStep resolver acc h = acc from by simp [copyStep, hr],
        List.filterMap_cons_none hre]
      rw [List.filterMap_cons_none hre] at hnodup
      exact ih acc (fun x hx s hs => hfresh x (List.mem_cons_of_mem h hx) s hs) hnodup
    | some src =>
      have hre : resolveEntry resolver h = some (pyBasename src, src) := by
        simp [resolveEntry, hr]
      rw [List.filterMap_cons_some hre] at hnodup
      have hbn : pyBasename src ∉ dictKeys acc :=
        hfresh h (List.mem_cons_self h t) src hr
      have hnm : dictMem acc (pyBasename src) = false := by
        cases hq : dictMem acc (pyBasename src) with
        | false => rfl
        | true => exact absurd ((dictMem_iff acc (pyBasename src)).1 hq) hbn
      have hstep : copyStep resolver acc h = acc ++ [(pyBasename src, src)] := by
        simp [copyStep, hr, dictInsert, hnm]
      rw [hstep, List.filterMap_cons_some hre]
      rw [List.map_cons, List.nodup_cons] at hnodup
      have hfresh2 : ∀ x ∈ t, ∀ s, dictFind resolver x = some s →
          pyBasename s ∉ dictKeys (acc ++ [(pyBasename src, src)]) := by
        intro x hx s hs hmem
        rw [show dictKeys (acc ++ [(pyBasename src, src)]) =
            dictKeys acc ++ [pyBasename src] from by simp [dictKeys], List.mem_append] at hmem
        rcases hmem with hmem | hmem
        · exact hfresh x (List.mem_cons_of_mem h hx) s hs hmem
        · have hent : ((pyBasename s, s) : String × String) ∈
              t.filterMap (resolveEntry resolver) :=
            List.mem_filterMap.2 ⟨x, hx, by simp [resolveEntry, hs]⟩
          have hsmem : pyBasename s ∈ (t.filterMap (resolveEntry resolver)).map Prod.fst :=
            List.mem_map_of_mem Prod.fst hent
          rw [List.mem_singleton] at hmem
          exact hnodup.1 (hmem ▸ hsmem)
      rw [ih (acc ++ [(pyBasename src, src)]) hfresh2 hnodup.2, List.append_assoc]
      rfl

theorem resolved_basenames_nodup (resolver : Dict) (part : List String) (hnd : part.Nodup)
    (hinj : ∀ h1, h1 ∈ part → ∀ h2, h2 ∈ part → ∀ s1 s2,
      dictFind resolver h1 = some s1 → dictFind resolver h2 = some s2 →
      pyBasename s1 = pyBasename s2 → h1 = h2) :
    ((part.filterMap (resolveEntry resolver)).map Prod.fst).Nodup := by
  induction part with
  | nil => simp
  | cons h t ih =>
    rw [List.nodup_cons] at hnd
    have hinj2 : ∀ h1, h1 ∈ t → ∀ h2, h2 ∈ t → ∀ s1 s2,
        dictFind resolver h1 = some s1 → dictFind resolver h2 = some s2 →
        pyBasename s1 = pyBasename s2 → h1 = h2 :=
      fun h1 hh1 h2 hh2 s1 s2 hf1 hf2 hbn =>
        hinj h1 (List.mem_cons_of_mem h hh1) h2 (List.mem_cons_of_mem h hh2) s1 s2 hf1 hf2 hbn
    cases hr : dictFind resolver h with
    | none =>
      have hre : resolveEntry resolver h = none := by simp [resolveEntry, hr]
      rw [List.filterMap_cons_none hre]
      exact ih hnd.2 hinj2
    | some src =>
      have hre : resolveEntry resolver h = some (pyBasename src, src) := by
        simp [resolveEntry, hr]
      rw [List.filterMap_cons_some hre, List.map_cons, List.nodup_cons]
      refine ⟨?_, ih hnd.2 hinj2⟩
      intro hmem
      obtain ⟨kv, hkv, hfst⟩ := List.mem_map.1 hmem
      obtain ⟨h2, hh2, hre2⟩ := List.mem_filterMap.1 hkv
      cases hq : dictFind resolver h2 with
      | none => simp [resolveEntry, hq] at hre2
      | some s2 =>
        have hgs : resolveEntry resolver h2 = some (pyBasename s2, s2) := by
          simp [resolveEntry, hq]
        have hkv2 : kv = (pyBasename s2, s2) := Option.some.inj (hre2.symm.trans hgs)
        subst hkv2
        have hbn2 : pyBasename s2 = pyBasename src := hfst
        have heq : h = h2 :=
          hinj h (List.mem_cons_self h t) h2 (List.mem_cons_of_mem h hh2) src s2 hr
            hq hbn2.symm
        exact hnd.1 (heq ▸ hh2)

theorem rehash_eq (f : String → Option String) (dest : Dict)
    (hnd : (dictKeys dest).Nodup) :
    rehash f dest =
      ((dest.filter (fun kv => isImageName kv.1)).filterMap
        (fun kv => okHash f kv.2)).toFinset := by
  unfold rehash process_images buildIndex
  rw [fps_foldl_hashStep]
  rw [show fps ([] : Dict) = ∅ from rfl, Finset.empty_union]
  congr 1
  unfold scanImages
  rw [show dictKeys dest = dest.map Prod.fst from rfl, List.filter_map, List.filterMap_map]
  apply List.filterMap_congr
  intro kv hkv
  have hmem : kv ∈ dest := (List.mem_filter.1 hkv).1
  have hlook : destOracle f dest kv.1 = f kv.2 := by
    unfold destOracle
    rw [dictFind_of_mem dest hnd kv hmem]
  simp [okHash, hlook, Function.comp]

theorem filterMap_resolved (f : String → Option String) (resolver : Dict)
    (part : List String)
    (hres : ∀ h ∈ part, ∃ src, dictFind resolver h = some src ∧ f src = some h ∧
      h ≠ "" ∧ isImageName (pyBasename src) = true) :
    ((part.filterMap (resolveEntry resolver)).filter
      (fun kv => isImageName kv.1)).filterMap (fun kv => okHash f kv.2) = part := by
  induction part with
  | nil => simp
  | cons h t ih =>
    obtain ⟨src, hfind, hf, hne, himg⟩ := hres h (List.mem_cons_self h t)
    have hre : resolveEntry resolver h = some (pyBasename src, src) := by
      simp [resolveEntry, hfind]
    have hok : okHash f src = some h := by simp [okHash, hf, hne]
    rw [List.filterMap_cons_some hre, List.filter_cons, if_pos (by simpa using himg),
      @List.filterMap_cons_some (String × String) String (fun kv => okHash f kv.2)
        (pyBasename src, src)
        ((t.filterMap (resolveEntry resolver)).filter (fun kv => isImageName kv.1)) h hok,
      ih (fun x hx => hres x (List.mem_cons_of_mem h hx))]

/-- A concrete content-hash oracle for the C9 counterexample: two sources
with the same base name but different content. -/
def fileHashAB : String → Option String :=
  fun p => if p = "A/x.jpg" then some ("h1") else
    if p = "B/x.jpg" then some ("h2") else none

/-- C9 counterexample: the partition {h1, h2} resolves h1 to `A/x.jpg` and h2
to `B/x.jpg` — two files with the same base name `x.jpg`.  Materializing
copies both to the same destination name, the second overwriting the first,
so re-hashing the destination yields {h2}, not the partition's {h1, h2}. -/
theorem roundtrip_cex :
    fileHashAB ("A/x.jpg") = some ("h1") ∧ fileHashAB ("B/x.jpg") = some ("h2") ∧
    rehash fileHashAB
      (materialize [("h1", "A/x.jpg"), ("h2", "B/x.jpg")] ["h1", "h2"]) = {"h2"} ∧
    rehash fileHashAB
      (materialize [("h1", "A/x.jpg"), ("h2", "B/x.jpg")] ["h1", "h2"]) ≠
      (["h1", "h2"] : List String).toFinset := by decide

/-- C9 amended: materializing a partition and re-hashing the destination
directory reproduces exactly the partition's fingerprint set, PROVIDED the
resolver maps every fingerprint of the partition to an image-named file whose
content hashes to that fingerprint, and no two distinct fingerprints of the
partition resolve to files sharing a base name (otherwise the later copy
overwrites the earlier one and fingerprints are lost, as the counterexample
shows). -/
theorem materialize_roundtrip (f : String → Option String) (resolver : Dict)
    (part : List String) (hnd : part.Nodup)
    (hres : ∀ h ∈ part, ∃ src, dictFind resolver h = some src ∧ f src = some h ∧
      h ≠ "" ∧ isImageName (pyBasename src) = true)
    (hinj : ∀ h1, h1 ∈ part → ∀ h2, h2 ∈ part → ∀ s1 s2,
      dictFind resolver h1 = some s1 → dictFind resolver h2 = some s2 →
      pyBasename s1 = pyBasename s2 → h1 = h2) :
    rehash f (materialize resolver part) = part.toFinset := by
  have hbn := resolved_basenames_nodup resolver part hnd hinj
  have hmat : materialize resolver part = part.filterMap (resolveEntry resolver) := by
    unfold materialize
    rw [foldl_copyStep_eq resolver part []
      (fun x hx s hs => by simp [dictKeys]) hbn]
    rfl
  have hkeys : (dictKeys (materialize resolver part)).Nodup := by
    rw [hmat]
    exact hbn
  rw [rehash_eq f _ hkeys, hmat, filterMap_resolved f resolver part hres]

/-- A concrete content-hash oracle for the C9 witness. -/
def fileHashW : String → Option String :=
  fun p => if p = "A/x.jpg" then some ("h1") else none

/-- C9 witness: the amended round-trip on a singleton partition. -/
theorem materialize_roundtrip_witness :
    rehash fileHashW (materialize [("h1", "A/x.jpg")] ["h1"]) =
      (["h1"] : List String).toFinset :=
  materialize_roundtrip fileHashW [("h1", "A/x.jpg")] ["h1"] (by decide)
    (fun h hmem => by
      have he : h = "h1" := by simpa using hmem
      subst he
      exact ⟨"A/x.jpg", by decide, by decide, by decide, by decide⟩)
    (fun h1 hh1 h2 hh2 s1 s2 hf1 hf2 hbn => by
      have he1 : h1 = "h1" := by simpa using hh1
      have he2 : h2 = "h1" := by simpa using hh2
      rw [he1, he2])

end DupPhotos
